import Mathlib

/-!
# A labeled tabular engine: alignment, fill and broadcasting semantics

The repository is a notebook that demonstrates element-wise arithmetic with
index alignment and missing-value fills on labeled one- and two-dimensional
collections.  The alignment/fill contract itself is not implemented in the
repository's source; the specification documents it as a design contract.
This file embeds that contract as executable Lean definitions and proves the
specification's testable properties about them.

Labels are integers (the notebook uses integer row labels; column labels in
the notebook are single characters, which we also encode as integers since
the contract only needs a totally ordered label type).  Values are nullable
rationals: `none` is the MissingMarker sentinel, `some q` a real numeric
value.
-/

/-- Labels: any totally orderable key type; we fix integers. -/
abbrev Label := Int

/-- Nullable numeric value: `none` is the MissingMarker sentinel,
`some q` a real number. -/
abbrev Val := Option ℚ

/-- Modelled from the spec: a LabeledVector is a one-dimensional ordered
sequence of nullable numeric values addressed by labels; we store it as the
ordered list of (label, value) pairs. -/
structure LabeledVector where
  entries : List (Label × Val)
deriving DecidableEq

/-- The ordered list of labels of a vector. -/
def LabeledVector.labels (A : LabeledVector) : List Label :=
  A.entries.map Prod.fst

/-- Look up the first entry with the given label in an association list,
returning the whole pair. -/
def findEntry {β : Type} : List (Label × β) → Label → Option (Label × β)
  | [], _ => none
  | p :: rest, l => if l = p.1 then some p else findEntry rest l

/-- Look up the value stored at a label in an association list. -/
def lookupAssoc {β : Type} : List (Label × β) → Label → Option β
  | [], _ => none
  | p :: rest, l => if l = p.1 then some p.2 else lookupAssoc rest l

/-- Modelled from the spec: the sorted union of two label lists — the set
union of both operands' labels, sorted ascending by the labels' natural
ordering. -/
def sortedUnion (xs ys : List Label) : List Label :=
  List.insertionSort (· ≤ ·) ((xs ++ ys).dedup)

/-- Modelled from the spec: reindex a vector over a list of labels, filling
unmatched positions with the fill value (MissingMarker when none supplied). -/
def reindexV (A : LabeledVector) (labs : List Label) (fill : Val) : LabeledVector :=
  ⟨labs.map fun l => (l, (lookupAssoc A.entries l).getD fill)⟩

/-- Modelled from the spec: the alignment engine for vectors — compute the
sorted union of the two label sets and produce reindexed copies of each
operand over that union. -/
def alignV (A B : LabeledVector) (fill : Val) : LabeledVector × LabeledVector :=
  (reindexV A (sortedUnion A.labels B.labels) fill,
   reindexV B (sortedUnion A.labels B.labels) fill)

/-- Modelled from the spec: apply an arithmetic operator to two nullable
values; MissingMarker combined with anything yields MissingMarker. -/
def valOp (f : ℚ → ℚ → ℚ) : Val → Val → Val
  | some a, some b => some (f a b)
  | _, _ => none

/-- Modelled from the spec: the elementwise binary operator on two
alignment-matched vectors (this component does not align). -/
def elementwiseV (f : ℚ → ℚ → ℚ) (A B : LabeledVector) : LabeledVector :=
  ⟨List.zipWith (fun p q => (p.1, valOp f p.2 q.2)) A.entries B.entries⟩

/-- Modelled from the spec: a binary arithmetic operation on vectors first
aligns the operands (with the optional fill value) and then applies the
elementwise operator. -/
def binOpV (f : ℚ → ℚ → ℚ) (fill : Val) (A B : LabeledVector) : LabeledVector :=
  elementwiseV f (alignV A B fill).1 (alignV A B fill).2

/-- Modelled from the spec: `A.add(B, fill)`; with `fill = none` this is the
plain `A + B` with default MissingMarker propagation. -/
def LabeledVector.addWith (A : LabeledVector) (B : LabeledVector) (fill : Val) :
    LabeledVector :=
  binOpV (· + ·) fill A B

/-- The value of a vector at a label: the stored value when the label is
present, MissingMarker when absent. -/
def LabeledVector.cellV (A : LabeledVector) (l : Label) : Val :=
  (lookupAssoc A.entries l).getD none

/-- Modelled from the spec: a LabeledTable is a two-dimensional collection —
ordered row labels, ordered column labels and a nullable numeric grid; we
store the ordered list of rows, each row an association list over the
table's column labels. -/
structure LabeledTable where
  colLabels : List Label
  rows : List (Label × List (Label × Val))
deriving DecidableEq

/-- The ordered list of row labels of a table. -/
def LabeledTable.rowLabels (T : LabeledTable) : List Label :=
  T.rows.map Prod.fst

/-- The value of a table at a (row, column) label pair; MissingMarker when
either label is absent. -/
def LabeledTable.cell (T : LabeledTable) (r c : Label) : Val :=
  match lookupAssoc T.rows r with
  | some rowv => (lookupAssoc rowv c).getD none
  | none => none

/-- Modelled from the spec: reindex a table over row and column label lists,
filling unmatched positions with the fill value. -/
def reindexT (T : LabeledTable) (rlabs clabs : List Label) (fill : Val) : LabeledTable :=
  ⟨clabs, rlabs.map fun r =>
    (r, clabs.map fun c =>
      (c, match lookupAssoc T.rows r with
          | some rowv => (lookupAssoc rowv c).getD fill
          | none => fill))⟩

/-- Modelled from the spec: the alignment engine for tables — the sorted
union is computed independently for row labels and column labels. -/
def alignT (A B : LabeledTable) (fill : Val) : LabeledTable × LabeledTable :=
  (reindexT A (sortedUnion A.rowLabels B.rowLabels)
             (sortedUnion A.colLabels B.colLabels) fill,
   reindexT B (sortedUnion A.rowLabels B.rowLabels)
             (sortedUnion A.colLabels B.colLabels) fill)

/-- Modelled from the spec: the elementwise binary operator on two
alignment-matched tables. -/
def elementwiseT (f : ℚ → ℚ → ℚ) (A B : LabeledTable) : LabeledTable :=
  ⟨A.colLabels,
   List.zipWith (fun p q =>
     (p.1, List.zipWith (fun x y => (x.1, valOp f x.2 y.2)) p.2 q.2)) A.rows B.rows⟩

/-- Modelled from the spec: a binary arithmetic operation on tables first
aligns the operands and then applies the elementwise operator. -/
def binOpT (f : ℚ → ℚ → ℚ) (fill : Val) (A B : LabeledTable) : LabeledTable :=
  elementwiseT f (alignT A B fill).1 (alignT A B fill).2

/-- Modelled from the spec: labeled entities of the two ranks — a labeled
vector or a labeled table. -/
inductive Entity where
  | vec (v : LabeledVector)
  | tab (t : LabeledTable)
deriving DecidableEq

/-- Modelled from the spec: the errors of the error-handling design; a
mismatched-rank binary operation fails with a ShapeMismatch error. -/
inductive ArithError where
  | shapeMismatch
deriving DecidableEq

/-- The rank of an entity: 1 for vectors, 2 for tables. -/
def Entity.rank : Entity → Nat
  | .vec _ => 1
  | .tab _ => 2

/-- Modelled from the spec: a binary arithmetic operation between two
labeled entities of the same rank aligns and combines them; mismatched rank
fails with a ShapeMismatch error. -/
def binOpEntity (f : ℚ → ℚ → ℚ) (fill : Val) :
    Entity → Entity → Except ArithError Entity
  | .vec a, .vec b => .ok (.vec (binOpV f fill a b))
  | .tab a, .tab b => .ok (.tab (binOpT f fill a b))
  | _, _ => .error .shapeMismatch

/-- Modelled from the spec: broadcasting a table against a vector along the
default axis — the vector's labels are aligned against the table's column
labels (their sorted union), and the same adjusted vector is combined with
every row of the table. -/
def broadcastOp (f : ℚ → ℚ → ℚ) (T : LabeledTable) (v : LabeledVector) : LabeledTable :=
  ⟨sortedUnion T.colLabels v.labels,
   T.rows.map fun p =>
     (p.1, (sortedUnion T.colLabels v.labels).map fun c =>
       (c, valOp f ((lookupAssoc p.2 c).getD none)
                   ((lookupAssoc v.entries c).getD none)))⟩

/-- The row of a table at a row label, as a labeled vector (empty when the
row label is absent). -/
def LabeledTable.rowAt (T : LabeledTable) (r : Label) : LabeledVector :=
  ⟨(lookupAssoc T.rows r).getD []⟩

/-- Modelled from the spec: `T - T[r0]`, broadcasting the table against one
of its own rows along the default (column) axis. -/
def subRow (T : LabeledTable) (r0 : Label) : LabeledTable :=
  broadcastOp (· - ·) T (T.rowAt r0)

/-! ## Helper lemmas: association lists -/

theorem lookupAssoc_eq_findEntry {β : Type} (e : List (Label × β)) (l : Label) :
    lookupAssoc e l = (findEntry e l).map Prod.snd := by
  induction e with
  | nil => rfl
  | cons p rest ih =>
    simp only [lookupAssoc, findEntry]
    by_cases h : l = p.1 <;> simp [h, ih]

theorem findEntry_mem {β : Type} {e : List (Label × β)} {l : Label}
    {p : Label × β} (h : findEntry e l = some p) : p ∈ e ∧ p.1 = l := by
  induction e with
  | nil => simp [findEntry] at h
  | cons q rest ih =>
    simp only [findEntry] at h
    by_cases hq : l = q.1
    · simp [hq] at h
      subst h
      exact ⟨List.mem_cons_self _ _, hq.symm⟩
    · simp [hq] at h
      rcases ih h with ⟨hm, hl⟩
      exact ⟨List.mem_cons_of_mem _ hm, hl⟩

theorem findEntry_isSome_of_mem {β : Type} {e : List (Label × β)} {l : Label}
    (h : l ∈ e.map Prod.fst) : ∃ p, findEntry e l = some p := by
  induction e with
  | nil => simp at h
  | cons q rest ih =>
    by_cases hq : l = q.1
    · exact ⟨q, by simp [findEntry, hq]⟩
    · simp only [List.map_cons, List.mem_cons] at h
      rcases h with h | h
      · exact absurd h hq
      · rcases ih h with ⟨p, hp⟩
        exact ⟨p, by simp [findEntry, hq, hp]⟩

theorem lookupAssoc_eq_none_iff {β : Type} (e : List (Label × β)) (l : Label) :
    lookupAssoc e l = none ↔ l ∉ e.map Prod.fst := by
  induction e with
  | nil => simp [lookupAssoc]
  | cons q rest ih =>
    simp only [lookupAssoc, List.map_cons, List.mem_cons]
    by_cases hq : l = q.1 <;> simp [hq, ih]

theorem lookupAssoc_isSome_of_mem {β : Type} {e : List (Label × β)} {l : Label}
    (h : l ∈ e.map Prod.fst) : ∃ v, lookupAssoc e l = some v := by
  rcases findEntry_isSome_of_mem h with ⟨p, hp⟩
  exact ⟨p.2, by rw [lookupAssoc_eq_findEntry, hp]; rfl⟩

/-- Looking up in a tabulated association list. -/
theorem lookupAssoc_tabulate {β : Type} (u : List Label) (G : Label → β) (c : Label) :
    lookupAssoc (u.map fun x => (x, G x)) c =
      if c ∈ u then some (G c) else none := by
  induction u with
  | nil => simp [lookupAssoc]
  | cons x rest ih =>
    simp only [List.map_cons, lookupAssoc, List.mem_cons]
    by_cases hx : c = x
    · simp [hx]
    · simp [hx, ih]

/-- Looking up in a mapped association list that keeps the labels. -/
theorem lookupAssoc_map_keepFst {β γ : Type} (e : List (Label × β))
    (F : Label × β → γ) (l : Label) :
    lookupAssoc (e.map fun p => (p.1, F p)) l =
      (findEntry e l).map F := by
  induction e with
  | nil => rfl
  | cons q rest ih =>
    simp only [List.map_cons, lookupAssoc, findEntry]
    by_cases hq : l = q.1 <;> simp [hq, ih]

/-! ## Helper lemmas: the sorted union -/

theorem mem_sortedUnion (xs ys : List Label) (l : Label) :
    l ∈ sortedUnion xs ys ↔ l ∈ xs ∨ l ∈ ys := by
  unfold sortedUnion
  rw [(List.perm_insertionSort _ _).mem_iff, List.mem_dedup, List.mem_append]

theorem sorted_sortedUnion (xs ys : List Label) :
    List.Sorted (· ≤ ·) (sortedUnion xs ys) :=
  List.sorted_insertionSort _ _

theorem nodup_sortedUnion (xs ys : List Label) :
    (sortedUnion xs ys).Nodup :=
  (List.perm_insertionSort _ _).nodup_iff.mpr ((xs ++ ys).nodup_dedup)

/-- Two sorted duplicate-free label lists with the same members are equal. -/
theorem sorted_nodup_ext {l₁ l₂ : List Label}
    (hn₁ : l₁.Nodup) (hn₂ : l₂.Nodup)
    (hs₁ : List.Sorted (· ≤ ·) l₁) (hs₂ : List.Sorted (· ≤ ·) l₂)
    (hm : ∀ a, a ∈ l₁ ↔ a ∈ l₂) : l₁ = l₂ := by
  refine List.eq_of_perm_of_sorted ?_ hs₁ hs₂
  refine List.perm_of_nodup_nodup_toFinset_eq hn₁ hn₂ ?_
  ext a
  simp [List.mem_toFinset, hm a]

/-- The sorted union only depends on the label sets, not their order. -/
theorem sortedUnion_congr {xs xs' ys ys' : List Label}
    (hx : ∀ a, a ∈ xs ↔ a ∈ xs') (hy : ∀ a, a ∈ ys ↔ a ∈ ys') :
    sortedUnion xs ys = sortedUnion xs' ys' := by
  refine sorted_nodup_ext (nodup_sortedUnion _ _) (nodup_sortedUnion _ _)
    (sorted_sortedUnion _ _) (sorted_sortedUnion _ _) ?_
  intro a
  rw [mem_sortedUnion, mem_sortedUnion, hx a, hy a]

theorem sortedUnion_comm (xs ys : List Label) :
    sortedUnion xs ys = sortedUnion ys xs := by
  refine sorted_nodup_ext (nodup_sortedUnion _ _) (nodup_sortedUnion _ _)
    (sorted_sortedUnion _ _) (sorted_sortedUnion _ _) ?_
  intro a
  rw [mem_sortedUnion, mem_sortedUnion, or_comm]

/-- The sorted union of a sorted duplicate-free list with itself is itself. -/
theorem sortedUnion_self {xs : List Label} (hn : xs.Nodup)
    (hs : List.Sorted (· ≤ ·) xs) : sortedUnion xs xs = xs := by
  refine sorted_nodup_ext (nodup_sortedUnion _ _) hn (sorted_sortedUnion _ _) hs ?_
  intro a
  rw [mem_sortedUnion, or_self]

/-! ## Characterizing binary operations on vectors -/

theorem zipWith_map_pair {α β γ δ : Type} (F : β → γ → δ) (g : α → β) (h : α → γ) :
    ∀ l : List α, List.zipWith F (l.map g) (l.map h) = l.map fun a => F (g a) (h a)
  | [] => rfl
  | a :: l => by simp [zipWith_map_pair F g h l]

theorem map_fst_pair {β : Type} (u : List Label) (G : Label → β) :
    (u.map fun l => (l, G l)).map Prod.fst = u := by
  induction u with
  | nil => rfl
  | cons a l ih => simp only [List.map_cons, ih]

theorem binOpV_entries (f : ℚ → ℚ → ℚ) (fill : Val) (A B : LabeledVector) :
    (binOpV f fill A B).entries =
      (sortedUnion A.labels B.labels).map fun l =>
        (l, valOp f ((lookupAssoc A.entries l).getD fill)
                    ((lookupAssoc B.entries l).getD fill)) := by
  simp [binOpV, alignV, elementwiseV, reindexV, zipWith_map_pair]

theorem binOpV_labels (f : ℚ → ℚ → ℚ) (fill : Val) (A B : LabeledVector) :
    (binOpV f fill A B).labels = sortedUnion A.labels B.labels := by
  simp only [LabeledVector.labels, binOpV_entries, map_fst_pair]

theorem binOpV_cellV (f : ℚ → ℚ → ℚ) (fill : Val) (A B : LabeledVector) (l : Label) :
    (binOpV f fill A B).cellV l =
      if l ∈ sortedUnion A.labels B.labels
      then valOp f ((lookupAssoc A.entries l).getD fill)
                   ((lookupAssoc B.entries l).getD fill)
      else none := by
  unfold LabeledVector.cellV
  rw [binOpV_entries, lookupAssoc_tabulate]
  by_cases h : l ∈ sortedUnion A.labels B.labels <;> simp [h]

/-! ## The claims -/

/-- C1: aligning two labeled vectors produces entities whose label list is
exactly the sorted union of the operands' label sets — sorted ascending,
duplicate-free, containing a label iff one of the operands does — and this
list depends only on the label sets, not on the operands' orders; for tables
the same rule applies independently to row labels and column labels. -/
theorem align_label_union (A B : LabeledVector) (TA TB : LabeledTable) (fill : Val) :
    (alignV A B fill).1.labels = sortedUnion A.labels B.labels ∧
    (alignV A B fill).2.labels = sortedUnion A.labels B.labels ∧
    List.Sorted (· ≤ ·) (sortedUnion A.labels B.labels) ∧
    (sortedUnion A.labels B.labels).Nodup ∧
    (∀ l, l ∈ sortedUnion A.labels B.labels ↔ l ∈ A.labels ∨ l ∈ B.labels) ∧
    (∀ A0 B0 : LabeledVector, (∀ l, l ∈ A0.labels ↔ l ∈ A.labels) →
      (∀ l, l ∈ B0.labels ↔ l ∈ B.labels) →
      (alignV A0 B0 fill).1.labels = (alignV A B fill).1.labels) ∧
    (alignT TA TB fill).1.rowLabels = sortedUnion TA.rowLabels TB.rowLabels ∧
    (alignT TA TB fill).1.colLabels = sortedUnion TA.colLabels TB.colLabels ∧
    (alignT TA TB fill).2.rowLabels = sortedUnion TA.rowLabels TB.rowLabels ∧
    (alignT TA TB fill).2.colLabels = sortedUnion TA.colLabels TB.colLabels := by
  refine ⟨?_, ?_, sorted_sortedUnion _ _, nodup_sortedUnion _ _,
    mem_sortedUnion _ _, ?_, ?_, rfl, ?_, rfl⟩
  · simp only [alignV, reindexV, LabeledVector.labels, map_fst_pair]
  · simp only [alignV, reindexV, LabeledVector.labels, map_fst_pair]
  · intro A0 B0 hA hB
    simp only [alignV, reindexV, LabeledVector.labels, map_fst_pair]
    exact sortedUnion_congr hA hB
  · simp only [alignT, reindexT, LabeledTable.rowLabels, map_fst_pair]
  · simp only [alignT, reindexT, LabeledTable.rowLabels, map_fst_pair]

/-- Witness for C1 at concrete inputs, including the order-independence
conjunct discharged at a concrete permutation of the first operand. -/
theorem align_label_union_witness :
    (alignV ⟨[(1, some 2), (0, some 3)]⟩ ⟨[(2, some 1)]⟩ none).1.labels =
      sortedUnion [1, 0] [2] ∧
    (alignV ⟨[(0, some 3), (1, some 2)]⟩ ⟨[(2, some 1)]⟩ none).1.labels =
      (alignV ⟨[(1, some 2), (0, some 3)]⟩ ⟨[(2, some 1)]⟩ none).1.labels := by
  have h := align_label_union ⟨[(1, some 2), (0, some 3)]⟩ ⟨[(2, some 1)]⟩
    ⟨[], []⟩ ⟨[], []⟩ none
  exact ⟨h.1, h.2.2.2.2.2.1 ⟨[(0, some 3), (1, some 2)]⟩ ⟨[(2, some 1)]⟩
    (by intro l; simp [LabeledVector.labels, or_comm]) (by intro l; rfl)⟩

/-- C2: `A.add(B, fill=0)` at a label present in exactly one of A and B
equals that operand's value there, and it is literally the operator applied
to that operand's value and the substituted fill 0 — the fill substitutes
before the operator runs. -/
theorem addWith_fill_exclusive (A B : LabeledVector) (l : Label) :
    (l ∈ A.labels → l ∉ B.labels →
      (A.addWith B (some 0)).cellV l = A.cellV l ∧
      (A.addWith B (some 0)).cellV l = valOp (· + ·) (A.cellV l) (some 0)) ∧
    (l ∈ B.labels → l ∉ A.labels →
      (A.addWith B (some 0)).cellV l = B.cellV l ∧
      (A.addWith B (some 0)).cellV l = valOp (· + ·) (some 0) (B.cellV l)) := by
  constructor
  · intro hA hB
    have hu : l ∈ sortedUnion A.labels B.labels :=
      (mem_sortedUnion _ _ _).mpr (Or.inl hA)
    have hBnone : lookupAssoc B.entries l = none :=
      (lookupAssoc_eq_none_iff _ _).mpr hB
    rcases lookupAssoc_isSome_of_mem hA with ⟨v, hv⟩
    have hcell : A.cellV l = v := by simp [LabeledVector.cellV, hv]
    have hmain : (A.addWith B (some 0)).cellV l = valOp (· + ·) v (some 0) := by
      rw [LabeledVector.addWith, binOpV_cellV, if_pos hu, hv, hBnone]
      rfl
    refine ⟨?_, by rw [hmain, hcell]⟩
    rw [hmain, hcell]
    cases v with
    | none => rfl
    | some a => simp [valOp]
  · intro hB hA
    have hu : l ∈ sortedUnion A.labels B.labels :=
      (mem_sortedUnion _ _ _).mpr (Or.inr hB)
    have hAnone : lookupAssoc A.entries l = none :=
      (lookupAssoc_eq_none_iff _ _).mpr hA
    rcases lookupAssoc_isSome_of_mem hB with ⟨v, hv⟩
    have hcell : B.cellV l = v := by simp [LabeledVector.cellV, hv]
    have hmain : (A.addWith B (some 0)).cellV l = valOp (· + ·) (some 0) v := by
      rw [LabeledVector.addWith, binOpV_cellV, if_pos hu, hv, hAnone]
      rfl
    refine ⟨?_, by rw [hmain, hcell]⟩
    rw [hmain, hcell]
    cases v with
    | none => rfl
    | some a => simp [valOp]

/-- Witness for C2 at the notebook's concrete vectors, at label 0 (present
only in A) and label 3 (present only in B). -/
theorem addWith_fill_exclusive_witness :
    ((LabeledVector.addWith ⟨[(0, some 2), (1, some 4), (2, some 6)]⟩
        ⟨[(1, some 1), (2, some 3), (3, some 5)]⟩ (some 0)).cellV 0 =
      (⟨[(0, some 2), (1, some 4), (2, some 6)]⟩ : LabeledVector).cellV 0) ∧
    ((LabeledVector.addWith ⟨[(0, some 2), (1, some 4), (2, some 6)]⟩
        ⟨[(1, some 1), (2, some 3), (3, some 5)]⟩ (some 0)).cellV 3 =
      (⟨[(1, some 1), (2, some 3), (3, some 5)]⟩ : LabeledVector).cellV 3) :=
  ⟨((addWith_fill_exclusive ⟨[(0, some 2), (1, some 4), (2, some 6)]⟩
      ⟨[(1, some 1), (2, some 3), (3, some 5)]⟩ 0).1 (by decide) (by decide)).1,
   ((addWith_fill_exclusive ⟨[(0, some 2), (1, some 4), (2, some 6)]⟩
      ⟨[(1, some 1), (2, some 3), (3, some 5)]⟩ 3).2 (by decide) (by decide)).1⟩

theorem LabeledVector.eq_of_entries {A B : LabeledVector}
    (h : A.entries = B.entries) : A = B := by
  cases A; cases B; cases h; rfl

/-- C3: a binary arithmetic operation without a fill value yields
MissingMarker at every label present in exactly one operand; in general each
output value is the operator applied to the two aligned values, and
MissingMarker whenever either aligned input is MissingMarker. -/
theorem binOp_nofill_missing (f : ℚ → ℚ → ℚ) (A B : LabeledVector) (l : Label) :
    (l ∈ A.labels → l ∉ B.labels → (binOpV f none A B).cellV l = none) ∧
    (l ∈ B.labels → l ∉ A.labels → (binOpV f none A B).cellV l = none) ∧
    (l ∈ sortedUnion A.labels B.labels →
      (binOpV f none A B).cellV l = valOp f (A.cellV l) (B.cellV l)) ∧
    (∀ x : Val, valOp f none x = none) ∧
    (∀ x : Val, valOp f x none = none) ∧
    (∀ a b : ℚ, valOp f (some a) (some b) = some (f a b)) := by
  have hgen : ∀ l, l ∈ sortedUnion A.labels B.labels →
      (binOpV f none A B).cellV l = valOp f (A.cellV l) (B.cellV l) := by
    intro l hl
    rw [binOpV_cellV, if_pos hl]
    rfl
  refine ⟨?_, ?_, hgen l, fun x => rfl, fun x => by cases x <;> rfl, fun a b => rfl⟩
  · intro hA hB
    rw [hgen l ((mem_sortedUnion _ _ _).mpr (Or.inl hA))]
    have : B.cellV l = none := by
      simp [LabeledVector.cellV, (lookupAssoc_eq_none_iff _ _).mpr hB]
    rw [this]
    cases A.cellV l <;> rfl
  · intro hB hA
    rw [hgen l ((mem_sortedUnion _ _ _).mpr (Or.inr hB))]
    have : A.cellV l = none := by
      simp [LabeledVector.cellV, (lookupAssoc_eq_none_iff _ _).mpr hA]
    rw [this]
    rfl

/-- Witness for C3 at the notebook's concrete vectors: labels 0 and 3 are
each present in exactly one operand and come out as MissingMarker. -/
theorem binOp_nofill_missing_witness :
    ((binOpV (· + ·) none ⟨[(0, some 2), (1, some 4), (2, some 6)]⟩
        ⟨[(1, some 1), (2, some 3), (3, some 5)]⟩).cellV 0 = none) ∧
    ((binOpV (· + ·) none ⟨[(0, some 2), (1, some 4), (2, some 6)]⟩
        ⟨[(1, some 1), (2, some 3), (3, some 5)]⟩).cellV 3 = none) :=
  ⟨(binOp_nofill_missing (· + ·) ⟨[(0, some 2), (1, some 4), (2, some 6)]⟩
      ⟨[(1, some 1), (2, some 3), (3, some 5)]⟩ 0).1 (by decide) (by decide),
   ((binOp_nofill_missing (· + ·) ⟨[(0, some 2), (1, some 4), (2, some 6)]⟩
      ⟨[(1, some 1), (2, some 3), (3, some 5)]⟩ 3).2.1 (by decide) (by decide))⟩

/-- C4: the notebook's concrete scenario, A = {0:2, 1:4, 2:6} and
B = {1:1, 2:3, 3:5}: `A.add(B, fill=0)` gives {0:2, 1:5, 2:9, 3:5} while
`A + B` without a fill value gives {0:Missing, 1:5, 2:9, 3:Missing}. -/
theorem concrete_add_example :
    LabeledVector.addWith ⟨[(0, some 2), (1, some 4), (2, some 6)]⟩
        ⟨[(1, some 1), (2, some 3), (3, some 5)]⟩ (some 0) =
      ⟨[(0, some 2), (1, some 5), (2, some 9), (3, some 5)]⟩ ∧
    LabeledVector.addWith ⟨[(0, some 2), (1, some 4), (2, some 6)]⟩
        ⟨[(1, some 1), (2, some 3), (3, some 5)]⟩ none =
      ⟨[(0, none), (1, some 5), (2, some 9), (3, none)]⟩ := by
  have hu : sortedUnion [0, 1, 2] [1, 2, 3] = ([0, 1, 2, 3] : List Label) := by
    decide
  constructor
  · refine LabeledVector.eq_of_entries ?_
    rw [LabeledVector.addWith, binOpV_entries]
    norm_num [LabeledVector.labels, hu, lookupAssoc, valOp]
  · refine LabeledVector.eq_of_entries ?_
    rw [LabeledVector.addWith, binOpV_entries]
    norm_num [LabeledVector.labels, hu, lookupAssoc, valOp]

/-! ## Commutativity of addition -/

theorem valOp_add_comm (x y : Val) :
    valOp (· + ·) x y = valOp (· + ·) y x := by
  cases x <;> cases y <;> simp [valOp, add_comm]

/-- C9: addition of labeled vectors is commutative as labeled entities —
`A.add(B, fill)` and `B.add(A, fill)` are structurally equal (same label
list, hence same label set and order, and same values), for every fill
value including the no-fill MissingMarker default. -/
theorem addWith_comm (A B : LabeledVector) (fill : Val) :
    A.addWith B fill = B.addWith A fill := by
  refine LabeledVector.eq_of_entries ?_
  rw [LabeledVector.addWith, LabeledVector.addWith, binOpV_entries, binOpV_entries,
    sortedUnion_comm B.labels A.labels]
  refine List.map_congr_left ?_
  intro l _
  rw [valOp_add_comm]

/-! ## Rank dispatch and the error model -/

theorem binOpV_none_left_only (f : ℚ → ℚ → ℚ) {A B : LabeledVector} {l : Label}
    (hA : l ∈ A.labels) (hB : l ∉ B.labels) :
    (binOpV f none A B).cellV l = none := by
  rw [binOpV_cellV, if_pos ((mem_sortedUnion _ _ _).mpr (Or.inl hA)),
    (lookupAssoc_eq_none_iff _ _).mpr hB]
  rcases lookupAssoc A.entries l with _ | v
  · rfl
  · cases v <;> rfl

theorem binOpV_none_right_only (f : ℚ → ℚ → ℚ) {A B : LabeledVector} {l : Label}
    (hB : l ∈ B.labels) (hA : l ∉ A.labels) :
    (binOpV f none A B).cellV l = none := by
  rw [binOpV_cellV, if_pos ((mem_sortedUnion _ _ _).mpr (Or.inr hB)),
    (lookupAssoc_eq_none_iff _ _).mpr hA]
  rfl

/-- C6: a binary arithmetic operation on operands of mismatched rank (one
vector, one table) fails with ShapeMismatch; equal-rank operands always
succeed; and an absent label is never an error condition — the operation
still succeeds and the absent position merely carries MissingMarker. -/
theorem binOp_rank_mismatch (f : ℚ → ℚ → ℚ) (fill : Val) (e₁ e₂ : Entity) :
    (e₁.rank ≠ e₂.rank → binOpEntity f fill e₁ e₂ = .error .shapeMismatch) ∧
    (e₁.rank = e₂.rank → ∃ r, binOpEntity f fill e₁ e₂ = .ok r) ∧
    (∀ A B : LabeledVector, ∀ l : Label, l ∈ A.labels → l ∉ B.labels →
      binOpEntity f none (.vec A) (.vec B) = .ok (.vec (binOpV f none A B)) ∧
      (binOpV f none A B).cellV l = none) := by
  refine ⟨?_, ?_, ?_⟩
  · intro hne
    cases e₁ <;> cases e₂ <;> first
      | rfl
      | exact absurd rfl hne
  · intro heq
    cases e₁ <;> cases e₂ <;> first
      | exact ⟨_, rfl⟩
      | exact absurd heq (by simp [Entity.rank])
  · intro A B l hA hB
    exact ⟨rfl, binOpV_none_left_only f hA hB⟩

/-- Witness for C6: a vector and a table fail with ShapeMismatch; two
vectors succeed, also when a label (here 0) is present in only one of them,
where the result carries MissingMarker. -/
theorem binOp_rank_mismatch_witness :
    binOpEntity (· + ·) none (.vec ⟨[(0, some 2)]⟩) (.tab ⟨[0], []⟩) =
      .error .shapeMismatch ∧
    (∃ r, binOpEntity (· + ·) none (.vec ⟨[(0, some 2)]⟩) (.vec ⟨[(1, some 3)]⟩) =
      .ok r) ∧
    (binOpV (· + ·) none ⟨[(0, some 2)]⟩ ⟨[(1, some 3)]⟩).cellV 0 = none := by
  have h := binOp_rank_mismatch (· + ·) none (.vec ⟨[(0, some 2)]⟩) (.tab ⟨[0], []⟩)
  have h2 := binOp_rank_mismatch (· + ·) none
    (.vec ⟨[(0, some 2)]⟩) (.vec ⟨[(1, some 3)]⟩)
  exact ⟨h.1 (by decide), h2.2.1 rfl,
    (h2.2.2 ⟨[(0, some 2)]⟩ ⟨[(1, some 3)]⟩ 0 (by decide) (by decide)).2⟩

/-! ## Self-alignment -/

theorem lookupAssoc_mem {β : Type} {e : List (Label × β)} {l : Label} {v : β}
    (h : lookupAssoc e l = some v) : (l, v) ∈ e := by
  induction e with
  | nil => cases h
  | cons p rest ih =>
    rw [lookupAssoc] at h
    by_cases hl : l = p.1
    · subst hl
      rw [if_pos rfl] at h
      rw [← Option.some.inj h]
      exact List.mem_cons_self _ _
    · rw [if_neg hl] at h
      exact List.mem_cons_of_mem _ (ih h)

theorem lookupAssoc_some_mem {β : Type} {e : List (Label × β)} {l : Label} {v : β}
    (h : lookupAssoc e l = some v) : l ∈ e.map Prod.fst := by
  by_contra hc
  rw [(lookupAssoc_eq_none_iff e l).mpr hc] at h
  cases h

/-- Tabulating the values of a duplicate-free association list over its own
label list reconstructs the list, whatever the default. -/
theorem map_lookup_reconstruct {β : Type} (e : List (Label × β)) (fill : β)
    (hn : (e.map Prod.fst).Nodup) :
    (e.map Prod.fst).map (fun l => (l, (lookupAssoc e l).getD fill)) = e := by
  induction e with
  | nil => rfl
  | cons p rest ih =>
    have h1 : p.1 ∉ rest.map Prod.fst := (List.nodup_cons.mp hn).1
    have h2 : (rest.map Prod.fst).Nodup := (List.nodup_cons.mp hn).2
    simp only [List.map_cons]
    congr 1
    · simp [lookupAssoc]
    · rw [List.map_congr_left, ih h2]
      intro l hl
      have hne : l ≠ p.1 := fun he => h1 (he ▸ hl)
      simp [lookupAssoc, hne]

/-! ## Broadcasting a table against one of its rows -/

theorem map_fst_pair2 {β γ : Type} (e : List (Label × β)) (G : Label × β → γ) :
    (e.map fun p => (p.1, G p)).map Prod.fst = e.map Prod.fst := by
  induction e with
  | nil => rfl
  | cons a l ih => simp only [List.map_cons, ih]

theorem LabeledTable.cell_of_lookup {T : LabeledTable} {r : Label}
    {rowv : List (Label × Val)} (h : lookupAssoc T.rows r = some rowv) (c : Label) :
    T.cell r c = (lookupAssoc rowv c).getD none := by
  rw [LabeledTable.cell, h]

theorem LabeledTable.cell_of_none {T : LabeledTable} {r : Label}
    (h : lookupAssoc T.rows r = none) (c : Label) : T.cell r c = none := by
  rw [LabeledTable.cell, h]

/-- The cell of a broadcast at a column in the aligned column union is the
operator applied to the table's cell and the vector's value there. -/
theorem broadcastOp_cell (f : ℚ → ℚ → ℚ) (T : LabeledTable) (v : LabeledVector)
    (r c : Label) (hc : c ∈ sortedUnion T.colLabels v.labels) :
    (broadcastOp f T v).cell r c = valOp f (T.cell r c) (v.cellV c) := by
  have hR : (broadcastOp f T v).rows = T.rows.map (fun p => (p.1,
      (sortedUnion T.colLabels v.labels).map fun c =>
        (c, valOp f ((lookupAssoc p.2 c).getD none)
                    ((lookupAssoc v.entries c).getD none)))) := rfl
  rcases o : findEntry T.rows r with _ | p
  · have h1 : lookupAssoc (broadcastOp f T v).rows r = none := by
      rw [hR, lookupAssoc_map_keepFst, o]
      rfl
    have h2 : lookupAssoc T.rows r = none := by
      rw [lookupAssoc_eq_findEntry, o]
      rfl
    rw [LabeledTable.cell_of_none h1, LabeledTable.cell_of_none h2]
    rfl
  · have h1 : lookupAssoc (broadcastOp f T v).rows r =
        some ((sortedUnion T.colLabels v.labels).map fun c =>
          (c, valOp f ((lookupAssoc p.2 c).getD none)
                      ((lookupAssoc v.entries c).getD none))) := by
      rw [hR, lookupAssoc_map_keepFst, o]
      rfl
    have h2 : lookupAssoc T.rows r = some p.2 := by
      rw [lookupAssoc_eq_findEntry, o]
      rfl
    rw [LabeledTable.cell_of_lookup h1, LabeledTable.cell_of_lookup h2,
      lookupAssoc_tabulate, if_pos hc]
    rfl

/-- C5 counterexample: the claim as stated fails on a labeled table carrying
a MissingMarker. For the one-cell table T with row 0 and column 0 holding
MissingMarker, `T - T[0]` has MissingMarker, not zero, at the cell in the
row at row 0's position. -/
theorem subRow_missing_cex :
    (subRow ⟨[0], [(0, [(0, (none : Val))])]⟩ 0).cell 0 0 ≠ some 0 := by
  decide

/-- C5 (amended): for every labeled table T whose rows are all indexed by
its column labels, whose values are all real numbers (no MissingMarker),
and which has a row labeled r0, the default column-wise broadcast
subtraction `T - T[r0]` preserves the row labels, keeps the same column
label set (equal on the nose when the column labels are sorted and
duplicate-free), puts a zero in every cell of the row at r0's position, and
makes every cell of every other row the difference of that row's cell and
T[r0]'s cell at the same column. -/
theorem subRow_zero (T : LabeledTable) (r0 : Label)
    (hwf : ∀ p ∈ T.rows, p.2.map Prod.fst = T.colLabels)
    (hr0 : r0 ∈ T.rowLabels)
    (hvals : ∀ p ∈ T.rows, ∀ q ∈ p.2, q.2.isSome = true) :
    (subRow T r0).rowLabels = T.rowLabels ∧
    (∀ c, c ∈ (subRow T r0).colLabels ↔ c ∈ T.colLabels) ∧
    (∀ c ∈ T.colLabels, (subRow T r0).cell r0 c = some 0) ∧
    (∀ r ∈ T.rowLabels, ∀ c ∈ T.colLabels,
      (subRow T r0).cell r c = valOp (· - ·) (T.cell r c) (T.cell r0 c)) ∧
    (∀ r ∈ T.rowLabels, ∀ c ∈ T.colLabels, ∃ a b : ℚ,
      T.cell r c = some a ∧ T.cell r0 c = some b ∧
      (subRow T r0).cell r c = some (a - b)) ∧
    (T.colLabels.Nodup → List.Sorted (· ≤ ·) T.colLabels →
      (subRow T r0).colLabels = T.colLabels) := by
  rcases lookupAssoc_isSome_of_mem hr0 with ⟨rowv0, h0⟩
  have hmem0 : (r0, rowv0) ∈ T.rows := lookupAssoc_mem h0
  have hcols0 : rowv0.map Prod.fst = T.colLabels := hwf _ hmem0
  have hvlab : (T.rowAt r0).labels = T.colLabels := by
    simp only [LabeledVector.labels, LabeledTable.rowAt, h0, Option.getD_some,
      hcols0]
  have hcell0 : ∀ c, (T.rowAt r0).cellV c = T.cell r0 c := by
    intro c
    rw [LabeledVector.cellV, LabeledTable.cell_of_lookup h0]
    simp only [LabeledTable.rowAt, h0, Option.getD_some]
  have hcu : ∀ c, c ∈ sortedUnion T.colLabels (T.rowAt r0).labels ↔
      c ∈ T.colLabels := by
    intro c
    rw [mem_sortedUnion, hvlab, or_self]
  have hdiff : ∀ r c, c ∈ T.colLabels →
      (subRow T r0).cell r c = valOp (· - ·) (T.cell r c) (T.cell r0 c) := by
    intro r c hc
    rw [subRow, broadcastOp_cell _ _ _ _ _ ((hcu c).mpr hc), hcell0 c]
  have hsome : ∀ r, r ∈ T.rowLabels → ∀ c, c ∈ T.colLabels →
      ∃ a : ℚ, T.cell r c = some a := by
    intro r hr c hc
    rcases lookupAssoc_isSome_of_mem hr with ⟨rowv, hrv⟩
    have hmem : (r, rowv) ∈ T.rows := lookupAssoc_mem hrv
    have hcols : rowv.map Prod.fst = T.colLabels := hwf _ hmem
    have hc' : c ∈ rowv.map Prod.fst := by
      rw [hcols]
      exact hc
    rcases lookupAssoc_isSome_of_mem hc' with ⟨w, hw⟩
    have hws : w.isSome = true := hvals _ hmem _ (lookupAssoc_mem hw)
    rcases w with _ | a
    · cases hws
    · refine ⟨a, ?_⟩
      rw [LabeledTable.cell_of_lookup hrv, hw]
      rfl
  refine ⟨map_fst_pair2 T.rows _, fun c => hcu c, ?_, ?_, ?_, ?_⟩
  · intro c hc
    rcases hsome r0 hr0 c hc with ⟨b, hb⟩
    rw [hdiff r0 c hc, hb]
    simp [valOp, sub_self]
  · intro r _ c hc
    exact hdiff r c hc
  · intro r hr c hc
    rcases hsome r hr c hc with ⟨a, ha⟩
    rcases hsome r0 hr0 c hc with ⟨b, hb⟩
    refine ⟨a, b, ha, hb, ?_⟩
    rw [hdiff r c hc, ha, hb]
    rfl
  · intro hn hs
    show sortedUnion T.colLabels (T.rowAt r0).labels = T.colLabels
    rw [hvlab]
    exact sortedUnion_self hn hs

/-- Witness for the amended C5 at a concrete 2×2 real-valued table: the row
at label 10 becomes all zeros, and the other row holds the elementwise
differences. -/
theorem subRow_zero_witness :
    (subRow ⟨[0, 1], [(10, [(0, some 1), (1, some 2)]),
        (20, [(0, some 3), (1, some 5)])]⟩ 10).cell 10 0 = some 0 ∧
    (subRow ⟨[0, 1], [(10, [(0, some 1), (1, some 2)]),
        (20, [(0, some 3), (1, some 5)])]⟩ 10).cell 20 1 =
      valOp (· - ·)
        ((⟨[0, 1], [(10, [(0, some 1), (1, some 2)]),
            (20, [(0, some 3), (1, some 5)])]⟩ : LabeledTable).cell 20 1)
        ((⟨[0, 1], [(10, [(0, some 1), (1, some 2)]),
            (20, [(0, some 3), (1, some 5)])]⟩ : LabeledTable).cell 10 1) := by
  have h := subRow_zero ⟨[0, 1], [(10, [(0, some 1), (1, some 2)]),
    (20, [(0, some 3), (1, some 5)])]⟩ 10 (by decide) (by decide) (by decide)
  exact ⟨h.2.2.1 0 (by decide), h.2.2.2.1 20 (by decide) 1 (by decide)⟩

/-! ## Self-alignment of vectors and tables -/

theorem LabeledTable.eq_of_fields {A B : LabeledTable}
    (h1 : A.colLabels = B.colLabels) (h2 : A.rows = B.rows) : A = B := by
  cases A
  cases B
  cases h1
  cases h2
  rfl

theorem reindexT_cell_mem (T : LabeledTable) (rlabs clabs : List Label)
    (fill : Val) (r c : Label) {rowv : List (Label × Val)}
    (hrow : lookupAssoc T.rows r = some rowv)
    (hr : r ∈ rlabs) (hc : c ∈ clabs) :
    (reindexT T rlabs clabs fill).cell r c = (lookupAssoc rowv c).getD fill := by
  have hRows : (reindexT T rlabs clabs fill).rows = rlabs.map fun r =>
      (r, clabs.map fun c =>
        (c, match lookupAssoc T.rows r with
            | some rowv => (lookupAssoc rowv c).getD fill
            | none => fill)) := rfl
  have h2 : lookupAssoc (reindexT T rlabs clabs fill).rows r =
      some (clabs.map fun c => (c, (lookupAssoc rowv c).getD fill)) := by
    rw [hRows, lookupAssoc_tabulate, if_pos hr, hrow]
  rw [LabeledTable.cell_of_lookup h2, lookupAssoc_tabulate, if_pos hc]
  rfl

theorem reindexT_cell_colAbsent (T : LabeledTable) (rlabs clabs : List Label)
    (fill : Val) (r c : Label) (hr : r ∈ rlabs) (hc : c ∉ clabs) :
    (reindexT T rlabs clabs fill).cell r c = none := by
  have hRows : (reindexT T rlabs clabs fill).rows = rlabs.map fun r =>
      (r, clabs.map fun c =>
        (c, match lookupAssoc T.rows r with
            | some rowv => (lookupAssoc rowv c).getD fill
            | none => fill)) := rfl
  have h2 : lookupAssoc (reindexT T rlabs clabs fill).rows r =
      some (clabs.map fun c =>
        (c, match lookupAssoc T.rows r with
            | some rowv => (lookupAssoc rowv c).getD fill
            | none => fill)) := by
    rw [hRows, lookupAssoc_tabulate, if_pos hr]
  rw [LabeledTable.cell_of_lookup h2, lookupAssoc_tabulate, if_neg hc]
  rfl

theorem reindexT_cell_rowAbsent (T : LabeledTable) (rlabs clabs : List Label)
    (fill : Val) (r c : Label) (hr : r ∉ rlabs) :
    (reindexT T rlabs clabs fill).cell r c = none := by
  have hRows : (reindexT T rlabs clabs fill).rows = rlabs.map fun r =>
      (r, clabs.map fun c =>
        (c, match lookupAssoc T.rows r with
            | some rowv => (lookupAssoc rowv c).getD fill
            | none => fill)) := rfl
  have h2 : lookupAssoc (reindexT T rlabs clabs fill).rows r = none := by
    rw [hRows, lookupAssoc_tabulate, if_neg hr]
  exact LabeledTable.cell_of_none h2 c

/-- Tabulating the reindex body of a duplicate-free well-formed row list
over its own row labels reconstructs the row list, whatever the fill. -/
theorem reindexT_rows_self (clabs : List Label) (fill : Val) (hn_c : clabs.Nodup) :
    ∀ e : List (Label × List (Label × Val)),
      (e.map Prod.fst).Nodup →
      (∀ p ∈ e, p.2.map Prod.fst = clabs) →
      (e.map Prod.fst).map (fun r =>
        (r, clabs.map fun c =>
          (c, match lookupAssoc e r with
              | some rowv => (lookupAssoc rowv c).getD fill
              | none => fill))) = e := by
  intro e
  induction e with
  | nil => intro _ _; rfl
  | cons p rest ih =>
    intro hn hwf
    have h1 : p.1 ∉ rest.map Prod.fst := (List.nodup_cons.mp hn).1
    have h2 : (rest.map Prod.fst).Nodup := (List.nodup_cons.mp hn).2
    simp only [List.map_cons]
    congr 1
    · have hp : lookupAssoc (p :: rest) p.1 = some p.2 := by
        simp [lookupAssoc]
      rw [hp]
      have hcols : p.2.map Prod.fst = clabs := hwf p (List.mem_cons_self p rest)
      have hrec : clabs.map (fun c => (c, (lookupAssoc p.2 c).getD fill)) = p.2 := by
        rw [← hcols]
        exact map_lookup_reconstruct p.2 fill (by rw [hcols]; exact hn_c)
      show (p.1, clabs.map fun c => (c, (lookupAssoc p.2 c).getD fill)) = p
      rw [hrec]
    · rw [List.map_congr_left,
        ih h2 (fun q hq => hwf q (List.mem_cons_of_mem p hq))]
      intro l hl
      have hne : l ≠ p.1 := fun he => h1 (he ▸ hl)
      have hstep : lookupAssoc (p :: rest) l = lookupAssoc rest l := by
        simp [lookupAssoc, hne]
      rw [hstep]

/-- Reindexing a well-formed duplicate-free table over its own row and
column labels is the identity, whatever the fill value. -/
theorem reindexT_self (T : LabeledTable) (fill : Val)
    (hn_r : T.rowLabels.Nodup) (hn_c : T.colLabels.Nodup)
    (hwf : ∀ p ∈ T.rows, p.2.map Prod.fst = T.colLabels) :
    reindexT T T.rowLabels T.colLabels fill = T := by
  refine LabeledTable.eq_of_fields rfl ?_
  exact reindexT_rows_self T.colLabels fill hn_c T.rows hn_r hwf

/-- Self-alignment preserves every cell of a well-formed table, for every
fill value. -/
theorem alignT_self_cell (T : LabeledTable) (fill : Val)
    (hwf : ∀ p ∈ T.rows, p.2.map Prod.fst = T.colLabels) (r c : Label) :
    (alignT T T fill).1.cell r c = T.cell r c := by
  have halign : (alignT T T fill).1 =
      reindexT T (sortedUnion T.rowLabels T.rowLabels)
        (sortedUnion T.colLabels T.colLabels) fill := rfl
  by_cases hr : r ∈ T.rowLabels
  · rcases lookupAssoc_isSome_of_mem hr with ⟨rowv, hrv⟩
    have hcols : rowv.map Prod.fst = T.colLabels := hwf _ (lookupAssoc_mem hrv)
    have hr' : r ∈ sortedUnion T.rowLabels T.rowLabels := by
      rw [mem_sortedUnion, or_self]
      exact hr
    by_cases hc : c ∈ T.colLabels
    · have hc' : c ∈ sortedUnion T.colLabels T.colLabels := by
        rw [mem_sortedUnion, or_self]
        exact hc
      have hcrow : c ∈ rowv.map Prod.fst := by
        rw [hcols]
        exact hc
      rcases lookupAssoc_isSome_of_mem hcrow with ⟨w, hw⟩
      rw [halign, reindexT_cell_mem T _ _ fill r c hrv hr' hc',
        LabeledTable.cell_of_lookup hrv, hw]
      rfl
    · have hc' : c ∉ sortedUnion T.colLabels T.colLabels := by
        rw [mem_sortedUnion, or_self]
        exact hc
      have hcnone : lookupAssoc rowv c = none :=
        (lookupAssoc_eq_none_iff _ _).mpr (by rw [hcols]; exact hc)
      rw [halign, reindexT_cell_colAbsent T _ _ fill r c hr' hc',
        LabeledTable.cell_of_lookup hrv, hcnone]
      rfl
  · have hr' : r ∉ sortedUnion T.rowLabels T.rowLabels := by
      rw [mem_sortedUnion, or_self]
      exact hr
    have hnone : lookupAssoc T.rows r = none :=
      (lookupAssoc_eq_none_iff _ _).mpr hr
    rw [halign, reindexT_cell_rowAbsent T _ _ fill r c hr',
      LabeledTable.cell_of_none hnone]

/-- C7: aligning a labeled entity with itself leaves it unchanged as a
labeled entity, for vectors and for tables. For a vector: the label set is
preserved, every label keeps its stored value (present labels stay present
with the same value, absent labels stay absent), both aligned copies
coincide, and a vector with sorted duplicate-free labels self-aligns to
itself on the nose. For a well-formed table (rows indexed by its column
labels): the row- and column-label sets are preserved, every cell keeps its
value, both aligned copies coincide, and a table with sorted duplicate-free
row and column labels self-aligns to itself on the nose. -/
theorem align_self (A : LabeledVector) (T : LabeledTable) (fill : Val)
    (hwf : ∀ p ∈ T.rows, p.2.map Prod.fst = T.colLabels) :
    (∀ l, l ∈ (alignV A A fill).1.labels ↔ l ∈ A.labels) ∧
    (∀ l v, lookupAssoc A.entries l = some v →
      lookupAssoc (alignV A A fill).1.entries l = some v) ∧
    (∀ l, lookupAssoc A.entries l = none →
      lookupAssoc (alignV A A fill).1.entries l = none) ∧
    (∀ l, (alignV A A fill).1.cellV l = A.cellV l) ∧
    (alignV A A fill).2 = (alignV A A fill).1 ∧
    (A.labels.Nodup → List.Sorted (· ≤ ·) A.labels → alignV A A fill = (A, A)) ∧
    (∀ l, l ∈ (alignT T T fill).1.rowLabels ↔ l ∈ T.rowLabels) ∧
    (∀ l, l ∈ (alignT T T fill).1.colLabels ↔ l ∈ T.colLabels) ∧
    (∀ r c, (alignT T T fill).1.cell r c = T.cell r c) ∧
    (alignT T T fill).2 = (alignT T T fill).1 ∧
    (T.rowLabels.Nodup → List.Sorted (· ≤ ·) T.rowLabels →
      T.colLabels.Nodup → List.Sorted (· ≤ ·) T.colLabels →
      alignT T T fill = (T, T)) := by
  have hlab : (alignV A A fill).1.labels = sortedUnion A.labels A.labels := by
    simp only [alignV, reindexV, LabeledVector.labels, map_fst_pair]
  have hlook : ∀ l, lookupAssoc (alignV A A fill).1.entries l =
      if l ∈ sortedUnion A.labels A.labels
      then some ((lookupAssoc A.entries l).getD fill) else none := by
    intro l
    simp only [alignV, reindexV]
    exact lookupAssoc_tabulate _ _ l
  have hmem : ∀ {l : Label} {v : Val}, lookupAssoc A.entries l = some v →
      l ∈ sortedUnion A.labels A.labels := by
    intro l v h
    rw [mem_sortedUnion]
    exact Or.inl (lookupAssoc_some_mem h)
  have hnmem : ∀ {l : Label}, lookupAssoc A.entries l = none →
      l ∉ sortedUnion A.labels A.labels := by
    intro l h hc
    rw [mem_sortedUnion, or_self] at hc
    exact (lookupAssoc_eq_none_iff _ _).mp h hc
  have hrowlab : (alignT T T fill).1.rowLabels =
      sortedUnion T.rowLabels T.rowLabels := by
    simp only [alignT, reindexT, LabeledTable.rowLabels, map_fst_pair]
  refine ⟨?_, ?_, ?_, ?_, rfl, ?_, ?_, ?_, alignT_self_cell T fill hwf, rfl, ?_⟩
  · intro l
    rw [hlab, mem_sortedUnion, or_self]
  · intro l v h
    rw [hlook l, if_pos (hmem h), h]
    rfl
  · intro l h
    rw [hlook l, if_neg (hnmem h)]
  · intro l
    rcases h : lookupAssoc A.entries l with _ | v
    · rw [LabeledVector.cellV, LabeledVector.cellV, h, hlook l, if_neg (hnmem h)]
    · rw [LabeledVector.cellV, LabeledVector.cellV, h, hlook l, if_pos (hmem h), h]
      rfl
  · intro hn hs
    have hu : sortedUnion A.labels A.labels = A.labels := sortedUnion_self hn hs
    have hA : reindexV A A.labels fill = A :=
      LabeledVector.eq_of_entries (map_lookup_reconstruct A.entries fill hn)
    show (reindexV A (sortedUnion A.labels A.labels) fill,
          reindexV A (sortedUnion A.labels A.labels) fill) = (A, A)
    rw [hu, hA]
  · intro l
    rw [hrowlab, mem_sortedUnion, or_self]
  · intro l
    show l ∈ sortedUnion T.colLabels T.colLabels ↔ l ∈ T.colLabels
    rw [mem_sortedUnion, or_self]
  · intro hnr hsr hnc hsc
    have hru : sortedUnion T.rowLabels T.rowLabels = T.rowLabels :=
      sortedUnion_self hnr hsr
    have hcu : sortedUnion T.colLabels T.colLabels = T.colLabels :=
      sortedUnion_self hnc hsc
    have hre : reindexT T T.rowLabels T.colLabels fill = T :=
      reindexT_self T fill hnr hnc hwf
    show (reindexT T (sortedUnion T.rowLabels T.rowLabels)
            (sortedUnion T.colLabels T.colLabels) fill,
          reindexT T (sortedUnion T.rowLabels T.rowLabels)
            (sortedUnion T.colLabels T.colLabels) fill) = (T, T)
    rw [hru, hcu, hre]

/-- Witness for C7 at concrete entities. Vector: the stored association
survives self-alignment, and the sorted duplicate-free vector self-aligns
to itself on the nose. Table (with a MissingMarker cell, and a concrete
fill value 0): a cell keeps its value, and the table self-aligns to itself
on the nose. -/
theorem align_self_witness :
    lookupAssoc (alignV ⟨[(0, some 2), (1, none)]⟩ ⟨[(0, some 2), (1, none)]⟩
      none).1.entries 0 = some (some 2) ∧
    alignV ⟨[(0, some 2), (1, none)]⟩ ⟨[(0, some 2), (1, none)]⟩ none =
      (⟨[(0, some 2), (1, none)]⟩, ⟨[(0, some 2), (1, none)]⟩) ∧
    (alignT ⟨[0, 1], [(5, [(0, some 1), (1, none)]),
          (7, [(0, some 2), (1, some 3)])]⟩
        ⟨[0, 1], [(5, [(0, some 1), (1, none)]),
          (7, [(0, some 2), (1, some 3)])]⟩ (some 0)).1.cell 5 1 =
      (⟨[0, 1], [(5, [(0, some 1), (1, none)]),
          (7, [(0, some 2), (1, some 3)])]⟩ : LabeledTable).cell 5 1 ∧
    alignT ⟨[0, 1], [(5, [(0, some 1), (1, none)]),
          (7, [(0, some 2), (1, some 3)])]⟩
        ⟨[0, 1], [(5, [(0, some 1), (1, none)]),
          (7, [(0, some 2), (1, some 3)])]⟩ (some 0) =
      (⟨[0, 1], [(5, [(0, some 1), (1, none)]), (7, [(0, some 2), (1, some 3)])]⟩,
       ⟨[0, 1], [(5, [(0, some 1), (1, none)]),
         (7, [(0, some 2), (1, some 3)])]⟩) := by
  have h1 := align_self ⟨[(0, some 2), (1, none)]⟩
    ⟨[0, 1], [(5, [(0, some 1), (1, none)]), (7, [(0, some 2), (1, some 3)])]⟩
    none (by decide)
  have h2 := align_self ⟨[(0, some 2), (1, none)]⟩
    ⟨[0, 1], [(5, [(0, some 1), (1, none)]), (7, [(0, some 2), (1, some 3)])]⟩
    (some 0) (by decide)
  exact ⟨h1.2.1 0 (some 2) (by decide), h1.2.2.2.2.2.1 (by decide) (by decide),
    h2.2.2.2.2.2.2.2.2.1 5 1,
    h2.2.2.2.2.2.2.2.2.2.2 (by decide) (by decide) (by decide) (by decide)⟩
